import Mathlib

/-!
Shallow embedding of the pattern-normalization layer of sublime-wcmatch
(src/st3/wcmatch/util.py and src/st3/wcmatch/fnmatch.py).

A pattern is a list of naturals: Unicode code points for the text alphabet,
byte values for the byte alphabet.  The scanner below reproduces the
left-to-right, leftmost, non-overlapping scan that Python's `re.sub` performs
with `RE_NORM` (text) respectively `RE_BNORM` (bytes), with the alternation
branches tried in the order they appear in the regex source.
-/

namespace Wcmatch

/-- Octal digit, the regex class [0-7]. -/
def isOct (c : Nat) : Bool := decide (48 ≤ c ∧ c ≤ 55)

/-- Hexadecimal digit, the regex class [\da-fA-F]. -/
def isHex (c : Nat) : Bool :=
  decide ((48 ≤ c ∧ c ≤ 57) ∨ (97 ≤ c ∧ c ≤ 102) ∨ (65 ≤ c ∧ c ≤ 70))

/-- Character of the standard-escape class [abfnrtv\\]. -/
def isStd (c : Nat) : Bool :=
  decide (c = 97 ∨ c = 98 ∨ c = 102 ∨ c = 110 ∨ c = 114 ∨ c = 116 ∨ c = 118 ∨ c = 92)

/-- Take exactly k hexadecimal digits from the front of r, as the regex
piece [\da-fA-F]\x7bk\x7d does; none when fewer than k are available. -/
def takeHex (k : Nat) (r : List Nat) : Option (List Nat × List Nat) :=
  if (r.take k).length = k ∧ (r.take k).all isHex then some (r.take k, r.drop k) else none

/-- Classification of one regex match of RE_NORM / RE_BNORM, i.e. the
EscapeToken of one scanned unit.  The constructor records the capture that
the `norm` callback inspects. -/
inductive Tok where
  /-- group 1 matched the two-unit escaped separator. -/
  | slashEsc : Tok
  /-- group 2: a standard escape, c is the escaped character. -/
  | standard (c : Nat) : Tok
  /-- inner octal group: ds are the 1-3 octal digits. -/
  | octal (ds : List Nat) : Tok
  /-- hex / unicode escape: p is the marker (x, u or U), ds the digits. -/
  | hexEsc (p : Nat) (ds : List Nat) : Tok
  /-- named unicode escape, text alphabet only; name is the text between the braces. -/
  | named (name : List Nat) : Tok
  /-- any other single escaped character (an opaque escape). -/
  | single (c : Nat) : Tok
  /-- a recognized escape marker (x, u, U, N) lacking its required suffix. -/
  | badEsc (c : Nat) : Tok
deriving DecidableEq

/-- The characters the match spans (group 0 of the regex match). -/
def tokText (t : Tok) : List Nat :=
  match t with
  | .slashEsc => [92, 47]
  | .standard c => [92, c]
  | .octal ds => 92 :: ds
  | .hexEsc p ds => 92 :: p :: ds
  | .named name => 92 :: 78 :: 123 :: (name ++ [125])
  | .single c => [92, c]
  | .badEsc c => [92, c]

/-- Match the escape alternatives of RE_NORM (ib = false) or RE_BNORM
(ib = true) against the characters that follow a backslash; branches are
tried in the order of the regex alternation.  Returns the token together
with the unconsumed remainder. -/
def bsMatch (ib : Bool) (rest : List Nat) : Option (Tok × List Nat) :=
  match rest with
  | [] => none
  | c :: r =>
    if c = 47 then some (.slashEsc, r)
    else if isStd c then some (.standard c, r)
    else if ib = false ∧ c = 85 then
      match takeHex 8 r with
      | some (ds, r') => some (.hexEsc 85 ds, r')
      | none => some (.badEsc 85, r)
    else if ib = false ∧ c = 117 then
      match takeHex 4 r with
      | some (ds, r') => some (.hexEsc 117 ds, r')
      | none => some (.badEsc 117, r)
    else if c = 120 then
      match takeHex 2 r with
      | some (ds, r') => some (.hexEsc 120 ds, r')
      | none => some (.badEsc 120, r)
    else if isOct c then
      let ds := (r.takeWhile isOct).take 2
      some (.octal (c :: ds), r.drop ds.length)
    else if ib = false ∧ c = 78 then
      match r with
      | 123 :: r2 =>
        if 125 ∈ r2 then
          some (.named (r2.takeWhile (· != 125)), (r2.dropWhile (· != 125)).tail)
        else some (.badEsc 78, r)
      | _ => some (.badEsc 78, r)
    else some (.single c, r)

/-- Errors norm_pattern can raise: the SyntaxError of the malformed-escape
branch (carrying the offending group text and its absolute offset), the
KeyError of an unknown unicode name, and the ValueError of chr on an
out-of-range code point. -/
inductive NormErr where
  | invalidEscape (value : List Nat) (pos : Nat) : NormErr
  | nameError (name : List Nat) : NormErr
  | chrRange (v : Nat) : NormErr
deriving DecidableEq

/-- BACK_SLASH_TRANSLATION: the replacement for a standard escape, c being
the escaped character.  Note the entry for an escaped backslash maps to the
unchanged two-character escape. -/
def stdTranslate (c : Nat) : List Nat :=
  if c = 92 then [92, 92]
  else if c = 97 then [7]
  else if c = 98 then [8]
  else if c = 102 then [12]
  else if c = 110 then [10]
  else if c = 114 then [13]
  else if c = 116 then [9]
  else [11]

/-- Value of a string of octal digits. -/
def octVal (ds : List Nat) : Nat := ds.foldl (fun a d => a * 8 + (d - 48)) 0

/-- Value of one hexadecimal digit. -/
def hexDigit (d : Nat) : Nat := if d ≤ 57 then d - 48 else if d ≤ 70 then d - 55 else d - 87

/-- Value of a string of hexadecimal digits. -/
def hexVal (ds : List Nat) : Nat := ds.foldl (fun a d => a * 16 + hexDigit d) 0

/-- Python's chr: succeeds exactly on code points up to 0x10FFFF. -/
def pyChr (v : Nat) : Except NormErr (List Nat) :=
  if v < 1114112 then .ok [v] else .error (.chrRange v)

/-- The matched text, preceded by one extra backslash when ignore_escape
re-escaping was requested. -/
def passThru (ig : Bool) (t : Tok) : List Nat :=
  if ig then 92 :: tokText t else tokText t

/-- The body of the `norm` callback of norm_pattern: what one match is
replaced with, or the error it raises.  Arguments mirror the closure state:
ib is_bytes, n normalize, r is_raw_chars, ig ignore_escape, lk the unicode
name lookup of `unicodedata.lookup`, pos the absolute offset of the match. -/
def normTok (ib n r ig : Bool) (lk : List Nat → Option Nat) (pos : Nat) (t : Tok) :
    Except NormErr (List Nat) :=
  match t with
  | .slashEsc => .ok (if n then [92, 92, 92, 92] else [92, 47])
  | .standard c => .ok (if r then stdTranslate c else [92, c])
  | .octal ds =>
    if r then
      if ib then .ok [octVal ds % 256] else pyChr (octVal ds)
    else .ok (passThru ig (.octal ds))
  | .hexEsc p ds =>
    if r then
      if ib then .ok [hexVal ds] else pyChr (hexVal ds)
    else .ok (passThru ig (.hexEsc p ds))
  | .named name =>
    if r then
      match lk name with
      | some v => .ok [v]
      | none => .error (.nameError name)
    else .ok (passThru ig (.named name))
  | .single c => .ok (passThru ig (.single c))
  | .badEsc c =>
    if r then .error (.invalidEscape [92, c] pos)
    else .ok (passThru ig (.badEsc c))

/-- The scanning loop of `pat.sub(norm, pattern)`: at each position try the
regex; on a match emit the replacement and continue past it, otherwise copy
one character.  Structural on fuel; one unit of fuel is spent per consumed
leading character, so fuel = length of the input always suffices. -/
def scanF (ib n r ig : Bool) (lk : List Nat → Option Nat) :
    Nat → Nat → List Nat → Except NormErr (List Nat)
  | 0, _, _ => .ok []
  | _ + 1, _, [] => .ok []
  | fuel + 1, pos, c :: rest =>
    if c = 47 then (scanF ib n r ig lk fuel (pos + 1) rest).map (fun out => 47 :: out)
    else if c = 92 then
      match bsMatch ib rest with
      | none => (scanF ib n r ig lk fuel (pos + 1) rest).map (fun out => 92 :: out)
      | some (t, rest') =>
        match normTok ib n r ig lk pos t with
        | .error e => .error e
        | .ok chunk =>
          (scanF ib n r ig lk fuel (pos + 1 + (rest.length - rest'.length)) rest').map
            (fun out => chunk ++ out)
    else (scanF ib n r ig lk fuel (pos + 1) rest).map (fun out => c :: out)

/-- The scan with exactly enough fuel. -/
def scanW (ib n r ig : Bool) (lk : List Nat → Option Nat) (pos : Nat) (s : List Nat) :
    Except NormErr (List Nat) :=
  scanF ib n r ig lk s.length pos s

/-- norm_pattern of util.py.  ib selects the byte alphabet (and with it
RE_BNORM); lk stands in for the unicode character database consulted by
`unicodedata.lookup`. -/
def norm_pattern (ib : Bool) (lk : List Nat → Option Nat) (pattern : List Nat)
    (normalize is_raw_chars ignore_escape : Bool) : Except NormErr (List Nat) :=
  if normalize = false ∧ is_raw_chars = false ∧ ignore_escape = false then .ok pattern
  else scanW ib normalize is_raw_chars ignore_escape lk 0 pattern

/-! Flag constants of fnmatch.py.  Modelled from the spec: the numeric
values live in the `_wcparse` module, which is not part of the visible
source; the spec describes them as named bits of a fixed-width bitset, so
they are modelled as twelve distinct bits in declaration order. -/

/-- Modelled from the spec: the CASE bit of `_wcparse`. -/
def CASE : Nat := 1

/-- Modelled from the spec: the IGNORECASE bit of `_wcparse`. -/
def IGNORECASE : Nat := 2

/-- Modelled from the spec: the RAWCHARS bit of `_wcparse`. -/
def RAWCHARS : Nat := 4

/-- Modelled from the spec: the NEGATE bit of `_wcparse`. -/
def NEGATE : Nat := 8

/-- Modelled from the spec: the MINUSNEGATE bit of `_wcparse`. -/
def MINUSNEGATE : Nat := 16

/-- Modelled from the spec: the DOTMATCH bit of `_wcparse`. -/
def DOTMATCH : Nat := 32

/-- Modelled from the spec: the EXTMATCH bit of `_wcparse`. -/
def EXTMATCH : Nat := 64

/-- Modelled from the spec: the BRACE bit of `_wcparse`. -/
def BRACE : Nat := 128

/-- Modelled from the spec: the SPLIT bit of `_wcparse`. -/
def SPLIT : Nat := 256

/-- Modelled from the spec: the NEGATEALL bit of `_wcparse`. -/
def NEGATEALL : Nat := 512

/-- Modelled from the spec: the FORCEWIN bit of `_wcparse`. -/
def FORCEWIN : Nat := 1024

/-- Modelled from the spec: the FORCEUNIX bit of `_wcparse`. -/
def FORCEUNIX : Nat := 2048

/-- FLAG_MASK of fnmatch.py: the union of the recognized bits. -/
def FLAG_MASK : Nat :=
  CASE ||| IGNORECASE ||| RAWCHARS ||| NEGATE ||| MINUSNEGATE ||| DOTMATCH |||
  EXTMATCH ||| BRACE ||| SPLIT ||| NEGATEALL ||| FORCEWIN ||| FORCEUNIX

/-- _flag_transform of fnmatch.py. -/
def _flag_transform (flags : Nat) : Nat :=
  let flags' :=
    if flags &&& FORCEUNIX ≠ 0 ∧ flags &&& FORCEWIN ≠ 0 then
      flags ^^^ (FORCEWIN ||| FORCEUNIX)
    else flags
  flags' &&& FLAG_MASK

/-- fnmatch of fnmatch.py.  The external `_wcparse.compile` is abstracted as
an arbitrary pure function producing a matcher; a matcher applied to a
filename yields the (truthy) match object or none, and `bool(...)` of it is
`isSome`. -/
def fnmatch {α β γ δ υ : Type} (compile : β → Nat → γ → δ → α → Option υ)
    (filename : α) (patterns : β) (flags : Nat) (limit : γ) (exclude : δ) : Bool :=
  (compile patterns (_flag_transform flags) limit exclude filename).isSome

/-- filter of fnmatch.py: one compilation, then one pass over the filenames
keeping those the compiled matcher accepts. -/
def filter {α β γ δ υ : Type} (compile : β → Nat → γ → δ → α → Option υ)
    (filenames : List α) (patterns : β) (flags : Nat) (limit : γ) (exclude : δ) : List α :=
  let obj := compile patterns (_flag_transform flags) limit exclude
  filenames.filter (fun filename => (obj filename).isSome)

/-- An empty unicode character database, used to instantiate lk in concrete
computations. -/
def lkEmpty : List Nat → Option Nat := fun _ => none

/-! ## Helper lemmas about the tokenizer and the scanner -/

theorem takeHex_remainder_length {k : Nat} {r ds r' : List Nat}
    (h : takeHex k r = some (ds, r')) : r'.length ≤ r.length := by
  unfold takeHex at h
  split at h
  · simp only [Option.some.injEq, Prod.mk.injEq] at h
    obtain ⟨-, rfl⟩ := h
    simp
  · simp at h

theorem takeHex_shape {k : Nat} {r ds r' : List Nat}
    (h : takeHex k r = some (ds, r')) :
    ds = r.take k ∧ r' = r.drop k ∧ ds.length = k ∧ ds.all isHex = true := by
  unfold takeHex at h
  split at h
  case isTrue hc =>
    simp only [Option.some.injEq, Prod.mk.injEq] at h
    obtain ⟨rfl, rfl⟩ := h
    exact ⟨rfl, rfl, hc.1, hc.2⟩
  case isFalse => simp at h

theorem bsMatch_rest_length {ib : Bool} {rest rest' : List Nat} {t : Tok}
    (h : bsMatch ib rest = some (t, rest')) : rest'.length ≤ rest.length := by
  match rest with
  | [] => simp [bsMatch] at h
  | c :: r =>
    have hr : r.length ≤ (c :: r).length := by simp
    simp only [bsMatch] at h
    split_ifs at h
    case pos =>
      simp only [Option.some.injEq, Prod.mk.injEq] at h
      obtain ⟨-, rfl⟩ := h; exact hr
    case pos =>
      simp only [Option.some.injEq, Prod.mk.injEq] at h
      obtain ⟨-, rfl⟩ := h; exact hr
    case pos =>
      split at h <;> simp only [Option.some.injEq, Prod.mk.injEq] at h <;> obtain ⟨-, rfl⟩ := h
      case h_1 heq => exact (takeHex_remainder_length heq).trans hr
      case h_2 => exact hr
    case pos =>
      split at h <;> simp only [Option.some.injEq, Prod.mk.injEq] at h <;> obtain ⟨-, rfl⟩ := h
      case h_1 heq => exact (takeHex_remainder_length heq).trans hr
      case h_2 => exact hr
    case pos =>
      split at h <;> simp only [Option.some.injEq, Prod.mk.injEq] at h <;> obtain ⟨-, rfl⟩ := h
      case h_1 heq => exact (takeHex_remainder_length heq).trans hr
      case h_2 => exact hr
    case pos =>
      simp only [Option.some.injEq, Prod.mk.injEq] at h
      obtain ⟨-, rfl⟩ := h
      exact (List.length_drop _ _ ▸ Nat.sub_le _ _).trans hr
    case pos =>
      split at h
      case h_1 =>
        split_ifs at h <;> simp only [Option.some.injEq, Prod.mk.injEq] at h <;>
          obtain ⟨-, rfl⟩ := h
        · exact le_trans
            (le_trans (List.tail_sublist _).length_le (List.dropWhile_sublist _).length_le)
            (by simp only [List.length_cons]; omega)
        · exact hr
      case h_2 =>
        simp only [Option.some.injEq, Prod.mk.injEq] at h
        obtain ⟨-, rfl⟩ := h; exact hr
    case neg =>
      simp only [Option.some.injEq, Prod.mk.injEq] at h
      obtain ⟨-, rfl⟩ := h; exact hr

theorem scanF_nil {ib n r ig : Bool} {lk : List Nat → Option Nat} (f pos : Nat) :
    scanF ib n r ig lk f pos [] = .ok [] := by
  cases f <;> rfl

theorem scanF_mono {ib n r ig : Bool} {lk : List Nat → Option Nat} :
    ∀ (f₁ f₂ pos : Nat) (s : List Nat), s.length ≤ f₁ → s.length ≤ f₂ →
      scanF ib n r ig lk f₁ pos s = scanF ib n r ig lk f₂ pos s := by
  intro f₁
  induction f₁ with
  | zero =>
    intro f₂ pos s h1 _
    have hs : s = [] := List.eq_nil_of_length_eq_zero (Nat.le_zero.mp h1)
    subst hs
    rw [scanF_nil, scanF_nil]
  | succ a IH =>
    intro f₂ pos s h1 h2
    match s with
    | [] => rw [scanF_nil, scanF_nil]
    | c :: rest =>
      match f₂ with
      | 0 => simp at h2
      | b + 1 =>
        have hr1 : rest.length ≤ a := by simpa using h1
        have hr2 : rest.length ≤ b := by simpa using h2
        simp only [scanF]
        split_ifs
        · rw [IH b (pos + 1) rest hr1 hr2]
        · cases hbs : bsMatch ib rest with
          | none => simp only [hbs]; rw [IH b (pos + 1) rest hr1 hr2]
          | some p =>
            obtain ⟨t, rest'⟩ := p
            have hlen := bsMatch_rest_length hbs
            simp only [hbs]
            cases hnt : normTok ib n r ig lk pos t with
            | error e => simp only [hnt]
            | ok chunk =>
              simp only [hnt]
              rw [IH b (pos + 1 + (rest.length - rest'.length)) rest'
                (hlen.trans hr1) (hlen.trans hr2)]
        · rw [IH b (pos + 1) rest hr1 hr2]

theorem scanW_nil {ib n r ig : Bool} {lk : List Nat → Option Nat} (pos : Nat) :
    scanW ib n r ig lk pos [] = .ok [] := rfl

theorem scanW_lit {ib n r ig : Bool} {lk : List Nat → Option Nat} {c : Nat}
    (hc47 : c ≠ 47) (hc92 : c ≠ 92) (pos : Nat) (rest : List Nat) :
    scanW ib n r ig lk pos (c :: rest) =
      (scanW ib n r ig lk (pos + 1) rest).map (fun out => c :: out) := by
  simp only [scanW, List.length_cons, scanF, if_neg hc47, if_neg hc92]

theorem scanW_slash {ib n r ig : Bool} {lk : List Nat → Option Nat} (pos : Nat)
    (rest : List Nat) :
    scanW ib n r ig lk pos (47 :: rest) =
      (scanW ib n r ig lk (pos + 1) rest).map (fun out => 47 :: out) := rfl

theorem scanW_bs_none {ib n r ig : Bool} {lk : List Nat → Option Nat}
    (h : bsMatch ib rest = none) (pos : Nat) :
    scanW ib n r ig lk pos (92 :: rest) =
      (scanW ib n r ig lk (pos + 1) rest).map (fun out => 92 :: out) := by
  have h92 : (92 : Nat) ≠ 47 := by decide
  simp only [scanW, List.length_cons, scanF, if_neg h92, if_pos rfl, h, if_true]

theorem scanW_bs_err {ib n r ig : Bool} {lk : List Nat → Option Nat} {t : Tok}
    {rest rest' : List Nat} {e : NormErr}
    (h : bsMatch ib rest = some (t, rest')) (pos : Nat)
    (he : normTok ib n r ig lk pos t = .error e) :
    scanW ib n r ig lk pos (92 :: rest) = .error e := by
  have h92 : (92 : Nat) ≠ 47 := by decide
  simp only [scanW, List.length_cons, scanF, if_neg h92, if_pos rfl, h, he, if_true]

theorem scanW_bs_ok {ib n r ig : Bool} {lk : List Nat → Option Nat} {t : Tok}
    {rest rest' chunk : List Nat}
    (h : bsMatch ib rest = some (t, rest')) (pos : Nat)
    (hok : normTok ib n r ig lk pos t = .ok chunk) :
    scanW ib n r ig lk pos (92 :: rest) =
      (scanW ib n r ig lk (pos + 1 + (rest.length - rest'.length)) rest').map
        (fun out => chunk ++ out) := by
  have h92 : (92 : Nat) ≠ 47 := by decide
  have hlen := bsMatch_rest_length h
  simp only [scanW, List.length_cons, scanF, if_neg h92, if_pos rfl, h, hok, if_true]
  rw [scanF_mono rest.length rest'.length _ rest' hlen le_rfl]

theorem map_eq_ok {f : List Nat → List Nat} {x : Except NormErr (List Nat)} {out : List Nat}
    (h : x.map f = .ok out) : ∃ y, x = .ok y ∧ out = f y := by
  cases x with
  | error e => simp [Except.map] at h
  | ok y =>
    refine ⟨y, rfl, ?_⟩
    simp only [Except.map, Except.ok.injEq] at h
    exact h.symm

theorem octVal_aux_lt :
    ∀ (ds : List Nat) (a : Nat), ds.all isOct = true →
      ds.foldl (fun a d => a * 8 + (d - 48)) a < (a + 1) * 8 ^ ds.length := by
  intro ds
  induction ds with
  | nil => intro a _; simp
  | cons d ds IH =>
    intro a h
    simp only [List.all_cons, Bool.and_eq_true] at h
    obtain ⟨hd, hds⟩ := h
    have hd7 : d - 48 ≤ 7 := by
      simp only [isOct, decide_eq_true_eq] at hd; omega
    simp only [List.foldl_cons, List.length_cons]
    calc ds.foldl (fun a d => a * 8 + (d - 48)) (a * 8 + (d - 48))
        < (a * 8 + (d - 48) + 1) * 8 ^ ds.length := IH _ hds
      _ ≤ ((a + 1) * 8) * 8 ^ ds.length := Nat.mul_le_mul_right _ (by omega)
      _ = (a + 1) * 8 ^ (ds.length + 1) := by ring

theorem octVal_lt {ds : List Nat} (h : ds.all isOct = true) : octVal ds < 8 ^ ds.length := by
  have := octVal_aux_lt ds 0 h
  simpa [octVal] using this

theorem hexVal_aux_lt :
    ∀ (ds : List Nat) (a : Nat), ds.all isHex = true →
      ds.foldl (fun a d => a * 16 + hexDigit d) a < (a + 1) * 16 ^ ds.length := by
  intro ds
  induction ds with
  | nil => intro a _; simp
  | cons d ds IH =>
    intro a h
    simp only [List.all_cons, Bool.and_eq_true] at h
    obtain ⟨hd, hds⟩ := h
    have hd15 : hexDigit d ≤ 15 := by
      simp only [isHex, decide_eq_true_eq] at hd
      unfold hexDigit
      split_ifs <;> omega
    simp only [List.foldl_cons, List.length_cons]
    calc ds.foldl (fun a d => a * 16 + hexDigit d) (a * 16 + hexDigit d)
        < (a * 16 + hexDigit d + 1) * 16 ^ ds.length := IH _ hds
      _ ≤ ((a + 1) * 16) * 16 ^ ds.length := Nat.mul_le_mul_right _ (by omega)
      _ = (a + 1) * 16 ^ (ds.length + 1) := by ring

theorem hexVal_lt {ds : List Nat} (h : ds.all isHex = true) : hexVal ds < 16 ^ ds.length := by
  have := hexVal_aux_lt ds 0 h
  simpa [hexVal] using this

/-! ## Totality of the scan without raw-character decoding -/

theorem normTok_ok_of_not_raw (ib n ig : Bool) (lk : List Nat → Option Nat) (pos : Nat)
    (t : Tok) : ∃ chunk, normTok ib n false ig lk pos t = .ok chunk := by
  cases t <;> exact ⟨_, rfl⟩

theorem scanW_ok_of_not_raw (ib n ig : Bool) (lk : List Nat → Option Nat) :
    ∀ (N : Nat) (s : List Nat), s.length ≤ N → ∀ pos,
      ∃ out, scanW ib n false ig lk pos s = .ok out := by
  intro N
  induction N with
  | zero =>
    intro s hs pos
    have h : s = [] := List.eq_nil_of_length_eq_zero (Nat.le_zero.mp hs)
    subst h
    exact ⟨[], scanW_nil pos⟩
  | succ N IH =>
    intro s hs pos
    match s with
    | [] => exact ⟨[], scanW_nil pos⟩
    | c :: rest =>
      have hrest : rest.length ≤ N := by simpa using hs
      by_cases h47 : c = 47
      · subst h47
        obtain ⟨out, hout⟩ := IH rest hrest (pos + 1)
        exact ⟨47 :: out, by rw [scanW_slash, hout]; rfl⟩
      by_cases h92 : c = 92
      · subst h92
        cases hbs : bsMatch ib rest with
        | none =>
          obtain ⟨out, hout⟩ := IH rest hrest (pos + 1)
          exact ⟨92 :: out, by rw [scanW_bs_none hbs, hout]; rfl⟩
        | some p =>
          obtain ⟨t, rest'⟩ := p
          obtain ⟨chunk, hchunk⟩ := normTok_ok_of_not_raw ib n ig lk pos t
          have hlen' : rest'.length ≤ N := (bsMatch_rest_length hbs).trans hrest
          obtain ⟨out, hout⟩ := IH rest' hlen' (pos + 1 + (rest.length - rest'.length))
          exact ⟨chunk ++ out, by rw [scanW_bs_ok hbs pos hchunk, hout]; rfl⟩
      · obtain ⟨out, hout⟩ := IH rest hrest (pos + 1)
        exact ⟨c :: out, by rw [scanW_lit h47 h92, hout]; rfl⟩

/-! ## Claim theorems (first batch) -/

/-- C7: fast-path identity — with all three behavior flags off, norm_pattern
returns the input pattern unchanged, in either alphabet. -/
theorem fast_path_identity (ib : Bool) (lk : List Nat → Option Nat) (p : List Nat) :
    norm_pattern ib lk p false false false = .ok p := rfl

/-- C10: normalization is total when raw-character decoding is off — in both
alphabets and for every normalize / ignore_escape setting, norm_pattern with
is_raw_chars false never raises; every match, including a bare escape marker
lacking its suffix, is handled by a pass-through branch. -/
theorem norm_total_without_rawchars (ib n ig : Bool) (lk : List Nat → Option Nat)
    (p : List Nat) : ∃ out, norm_pattern ib lk p n false ig = .ok out := by
  unfold norm_pattern
  split
  · exact ⟨p, rfl⟩
  · exact scanW_ok_of_not_raw ib n ig lk p.length p le_rfl 0

/-- C2 counterexample: on the input backslash-u-1-2 with raw decoding on, the
error carries the two-character prefix (backslash u), not the full
four-character malformed text the claim announces. -/
theorem invalid_escape_cites_prefix_cex :
    norm_pattern false lkEmpty [92, 117, 49, 50] false true false =
      .error (.invalidEscape [92, 117] 0) ∧
    NormErr.invalidEscape [92, 117] 0 ≠ NormErr.invalidEscape [92, 117, 49, 50] 0 :=
  ⟨rfl, by decide⟩

/-- C2 (amended): with raw decoding on, a malformed escape always aborts with
an error carrying the recognized two-character escape prefix and its 0-based
offset in the input; in particular backslash-u-1-2 fails citing the substring
backslash-u at position 0. -/
theorem invalid_escape_error_value :
    norm_pattern false lkEmpty [92, 117, 49, 50] false true false =
      .error (.invalidEscape [92, 117] 0) ∧
    ∀ (ib n ig : Bool) (lk : List Nat → Option Nat) (pos c : Nat),
      normTok ib n true ig lk pos (.badEsc c) = .error (.invalidEscape [92, c] pos) :=
  ⟨rfl, fun _ _ _ _ _ _ => rfl⟩

/-- C3 counterexample: with raw decoding on, the two-character escaped
backslash is left as two characters, not collapsed to one literal backslash
as the claim states. -/
theorem standard_escape_backslash_cex :
    norm_pattern false lkEmpty [92, 92] false true false = .ok [92, 92] ∧
    ([92, 92] : List Nat) ≠ [92] := ⟨rfl, by decide⟩

/-- C3 (amended): with raw decoding on, each standard escape other than the
escaped backslash is replaced by the single control character it denotes,
while the escaped backslash is left unchanged as the two-character escape;
with raw decoding off the escape text is unchanged.  In particular
normalizing foo-backslash-n-bar decodes the escape to one newline. -/
theorem standard_escape_decode :
    norm_pattern false lkEmpty [102, 111, 111, 92, 110, 98, 97, 114] false true false =
      .ok [102, 111, 111, 10, 98, 97, 114] ∧
    (∀ (ib n ig : Bool) (lk : List Nat → Option Nat) (pos : Nat),
      normTok ib n true ig lk pos (.standard 97) = .ok [7] ∧
      normTok ib n true ig lk pos (.standard 98) = .ok [8] ∧
      normTok ib n true ig lk pos (.standard 102) = .ok [12] ∧
      normTok ib n true ig lk pos (.standard 110) = .ok [10] ∧
      normTok ib n true ig lk pos (.standard 114) = .ok [13] ∧
      normTok ib n true ig lk pos (.standard 116) = .ok [9] ∧
      normTok ib n true ig lk pos (.standard 118) = .ok [11] ∧
      normTok ib n true ig lk pos (.standard 92) = .ok [92, 92]) ∧
    (∀ (ib n ig : Bool) (lk : List Nat → Option Nat) (pos c : Nat),
      normTok ib n false ig lk pos (.standard c) = .ok [92, c]) :=
  ⟨rfl, fun _ _ _ _ _ => ⟨rfl, rfl, rfl, rfl, rfl, rfl, rfl, rfl⟩, fun _ _ _ _ _ _ => rfl⟩

/-- C4 counterexample: the text-alphabet octal escape backslash-4-0-0 decodes
to code point 256, not to the byte-masked value 0 the claim requires for
both alphabets. -/
theorem octal_mask_text_cex :
    norm_pattern false lkEmpty [92, 52, 48, 48] false true false = .ok [256] ∧
    256 % 256 = 0 ∧ ([256] : List Nat) ≠ [0] := ⟨rfl, rfl, by decide⟩

/-- C4 (amended): with raw decoding on, a byte-alphabet octal escape decodes
to its value masked to one byte, a text-alphabet octal escape decodes to the
code point of its full (unmasked, at most 511) value, and a two-digit hex
escape decodes to its value in both alphabets; backslash-1-0-1 and
backslash-x-4-1 both decode to 65. -/
theorem numeric_escape_decode :
    norm_pattern false lkEmpty [92, 49, 48, 49] false true false = .ok [65] ∧
    norm_pattern false lkEmpty [92, 120, 52, 49] false true false = .ok [65] ∧
    norm_pattern true lkEmpty [92, 49, 48, 49] false true false = .ok [65] ∧
    norm_pattern true lkEmpty [92, 120, 52, 49] false true false = .ok [65] ∧
    norm_pattern true lkEmpty [92, 52, 48, 48] false true false = .ok [0] ∧
    (∀ (n ig : Bool) (lk : List Nat → Option Nat) (pos : Nat) (ds : List Nat),
      normTok true n true ig lk pos (.octal ds) = .ok [octVal ds % 256]) ∧
    (∀ (n ig : Bool) (lk : List Nat → Option Nat) (pos : Nat) (ds : List Nat),
      ds.all isOct = true → ds.length ≤ 3 →
      normTok false n true ig lk pos (.octal ds) = .ok [octVal ds]) ∧
    (∀ (ib n ig : Bool) (lk : List Nat → Option Nat) (pos : Nat) (ds : List Nat),
      ds.all isHex = true → ds.length = 2 →
      normTok ib n true ig lk pos (.hexEsc 120 ds) = .ok [hexVal ds]) := by
  refine ⟨rfl, rfl, rfl, rfl, rfl, fun _ _ _ _ _ => rfl, ?_, ?_⟩
  · intro n ig lk pos ds hall hlen
    have h1 : octVal ds < 8 ^ ds.length := octVal_lt hall
    have h2 : (8 : Nat) ^ ds.length ≤ 8 ^ 3 := Nat.pow_le_pow_right (by omega) hlen
    have h3 : octVal ds < 1114112 := by
      have : (8 : Nat) ^ 3 = 512 := by norm_num
      omega
    simp [normTok, pyChr, h3]
  · intro ib n ig lk pos ds hall hlen
    have h1 : hexVal ds < 16 ^ ds.length := hexVal_lt hall
    rw [hlen] at h1
    have h2 : (16 : Nat) ^ 2 = 256 := by norm_num
    cases ib
    · have h3 : hexVal ds < 1114112 := by omega
      simp [normTok, pyChr, h3]
    · simp [normTok]

/-- C4 witness: the amended octal and hex rules applied to the concrete
digit strings 101 (octal) and 41 (hex). -/
theorem numeric_escape_decode_witness :
    normTok false false true false lkEmpty 0 (.octal [49, 48, 49]) = .ok [octVal [49, 48, 49]] ∧
    normTok false false true false lkEmpty 0 (.hexEsc 120 [52, 49]) = .ok [hexVal [52, 49]] :=
  ⟨numeric_escape_decode.2.2.2.2.2.2.1 false false lkEmpty 0 [49, 48, 49]
      (by decide) (by decide),
    numeric_escape_decode.2.2.2.2.2.2.2 false false false lkEmpty 0 [52, 49]
      (by decide) (by decide)⟩

/-- C5: in the byte alphabet the grammar has no unicode or named-unicode
branches — a backslash followed by u, U or N is always classified as an
opaque escape — and the byte pattern backslash-u-0-0-4-1 is passed through
unchanged rather than decoded. -/
theorem byte_alphabet_opaque_unicode :
    norm_pattern true lkEmpty [92, 117, 48, 48, 52, 49] false true false =
      .ok [92, 117, 48, 48, 52, 49] ∧
    (∀ r : List Nat, bsMatch true (117 :: r) = some (.single 117, r)) ∧
    (∀ r : List Nat, bsMatch true (85 :: r) = some (.single 85, r)) ∧
    (∀ r : List Nat, bsMatch true (78 :: r) = some (.single 78, r)) :=
  ⟨rfl, fun _ => rfl, fun _ => rfl, fun _ => rfl⟩

/-- C6: with normalize on, the matched two-unit escaped separator is replaced
by the canonical run of four backslashes while a bare single separator is
copied unchanged; with normalize off both separator forms are left unchanged. -/
theorem slash_normalization :
    (∀ (ib r ig : Bool) (lk : List Nat → Option Nat) (pos : Nat),
      normTok ib true r ig lk pos .slashEsc = .ok [92, 92, 92, 92]) ∧
    (∀ (ib r ig : Bool) (lk : List Nat → Option Nat) (pos : Nat),
      normTok ib false r ig lk pos .slashEsc = .ok [92, 47]) ∧
    (∀ (ib n r ig : Bool) (lk : List Nat → Option Nat) (pos : Nat) (rest : List Nat),
      scanW ib n r ig lk pos (47 :: rest) =
        (scanW ib n r ig lk (pos + 1) rest).map (fun out => 47 :: out)) ∧
    norm_pattern false lkEmpty [97, 92, 47, 98] true false false =
      .ok [97, 92, 92, 92, 92, 98] ∧
    norm_pattern false lkEmpty [97, 47, 98] true false false = .ok [97, 47, 98] ∧
    norm_pattern false lkEmpty [97, 92, 47, 98] false true false = .ok [97, 92, 47, 98] :=
  ⟨fun _ _ _ _ _ => rfl, fun _ _ _ _ _ => rfl, fun _ _ _ _ _ _ _ => rfl, rfl, rfl, rfl⟩

theorem and_1024_eq_zero_iff (x : Nat) : x &&& 1024 = 0 ↔ x.testBit 10 = false := by
  have h := Nat.and_two_pow x 10
  norm_num at h
  rw [h]
  cases x.testBit 10 <;> simp

theorem and_2048_eq_zero_iff (x : Nat) : x &&& 2048 = 0 ↔ x.testBit 11 = false := by
  have h := Nat.and_two_pow x 11
  norm_num at h
  rw [h]
  cases x.testBit 11 <;> simp

theorem _flag_transform_eq (flags : Nat) :
    _flag_transform flags =
      (if flags &&& 2048 ≠ 0 ∧ flags &&& 1024 ≠ 0 then flags ^^^ 3072 else flags) &&& 4095 :=
  rfl

/-- C8: flag resolution — FORCEWIN and FORCEUNIX cancel when both are set
and the result is masked to the recognized bits, so the two bits are never
simultaneously set in a resolved value, the mask is idempotent on results
(unrecognized bits were discarded), and resolving the two bits together
agrees with resolving 0 on those bits. -/
theorem flag_resolution (flags : Nat) :
    (_flag_transform flags &&& FORCEWIN = 0 ∨ _flag_transform flags &&& FORCEUNIX = 0) ∧
    _flag_transform flags &&& FLAG_MASK = _flag_transform flags ∧
    _flag_transform (FORCEWIN ||| FORCEUNIX) &&& (FORCEWIN ||| FORCEUNIX) =
      _flag_transform 0 &&& (FORCEWIN ||| FORCEUNIX) := by
  have h4095_1024 : (4095 : Nat) &&& 1024 = 1024 := by decide
  have h4095_2048 : (4095 : Nat) &&& 2048 = 2048 := by decide
  refine ⟨?_, ?_, by decide⟩
  · show _flag_transform flags &&& 1024 = 0 ∨ _flag_transform flags &&& 2048 = 0
    rw [_flag_transform_eq]
    by_cases hc : flags &&& 2048 ≠ 0 ∧ flags &&& 1024 ≠ 0
    · left
      rw [if_pos hc]
      have h10 : flags.testBit 10 = true := by
        rcases hc with ⟨-, h⟩
        cases hb : flags.testBit 10
        · exact absurd ((and_1024_eq_zero_iff flags).mpr hb) h
        · rfl
      have hstep : ((flags ^^^ 3072) &&& 4095) &&& 1024 = (flags ^^^ 3072) &&& 1024 := by
        rw [Nat.and_assoc, h4095_1024]
      rw [hstep, and_1024_eq_zero_iff, Nat.testBit_xor, h10]
      have h3072 : (3072 : Nat).testBit 10 = true := by decide
      rw [h3072]
      rfl
    · rw [if_neg hc]
      rcases not_and_or.mp hc with h | h
      · right
        have h11 : flags.testBit 11 = false := by
          cases hb : flags.testBit 11
          · rfl
          · exact absurd (fun hz => by rw [(and_2048_eq_zero_iff flags).mp hz] at hb; cases hb) h
        have hstep : (flags &&& 4095) &&& 2048 = flags &&& 2048 := by
          rw [Nat.and_assoc, h4095_2048]
        rw [hstep, and_2048_eq_zero_iff]
        exact h11
      · left
        have h10 : flags.testBit 10 = false := by
          cases hb : flags.testBit 10
          · rfl
          · exact absurd (fun hz => by rw [(and_1024_eq_zero_iff flags).mp hz] at hb; cases hb) h
        have hstep : (flags &&& 4095) &&& 1024 = flags &&& 1024 := by
          rw [Nat.and_assoc, h4095_1024]
        rw [hstep, and_1024_eq_zero_iff]
        exact h10
  · rw [_flag_transform_eq]
    show _ &&& 4095 = _
    rw [Nat.and_assoc, Nat.and_self]

/-! ## Infrastructure for the idempotence analysis -/

theorem isHex_ne {c : Nat} (h : isHex c = true) : c ≠ 47 ∧ c ≠ 92 := by
  simp only [isHex, decide_eq_true_eq] at h
  omega

theorem isStd_ne_47 {c : Nat} (h : isStd c = true) : c ≠ 47 := by
  simp only [isStd, decide_eq_true_eq] at h
  omega

theorem isOct_facts {c : Nat} (h : isOct c = true) :
    c ≠ 47 ∧ isStd c = false ∧ c ≠ 85 ∧ c ≠ 117 ∧ c ≠ 120 ∧ c ≠ 78 := by
  simp only [isOct, decide_eq_true_eq] at h
  refine ⟨by omega, ?_, by omega, by omega, by omega, by omega⟩
  simp only [isStd, decide_eq_false_iff_not]
  omega

theorem takeHex_exact {k : Nat} {ds : List Nat} (hlen : ds.length = k)
    (hall : ds.all isHex = true) (T : List Nat) : takeHex k (ds ++ T) = some (ds, T) := by
  unfold takeHex
  rw [List.take_left' hlen, List.drop_left' hlen, if_pos ⟨hlen, hall⟩]

theorem takeHex_zero (r : List Nat) : takeHex 0 r = some ([], r) := by
  simp [takeHex]

theorem takeHex_succ_nil (k : Nat) : takeHex (k + 1) [] = none := by
  simp [takeHex]

theorem takeHex_succ_not_hex {c : Nat} (hc : isHex c = false) (k : Nat) (u : List Nat) :
    takeHex (k + 1) (c :: u) = none := by
  simp [takeHex, List.take_succ_cons, hc]

theorem takeHex_succ_hex {c : Nat} (hc : isHex c = true) (k : Nat) (u : List Nat) :
    takeHex (k + 1) (c :: u) = none ↔ takeHex k u = none := by
  simp only [takeHex, List.take_succ_cons, List.length_cons, List.all_cons, hc,
    Bool.true_and, Nat.add_right_cancel_iff]
  split_ifs <;> simp

theorem takeWhile_append_of_all {p : Nat → Bool} {l₁ : List Nat} (h : l₁.all p = true)
    (l₂ : List Nat) : (l₁ ++ l₂).takeWhile p = l₁ ++ l₂.takeWhile p := by
  rw [List.takeWhile_append]
  rw [List.takeWhile_eq_self_iff.mpr (List.all_eq_true.mp h)]
  simp

theorem dropWhile_append_of_all {p : Nat → Bool} {l₁ : List Nat} (h : l₁.all p = true)
    (l₂ : List Nat) : (l₁ ++ l₂).dropWhile p = l₂.dropWhile p := by
  rw [List.dropWhile_append]
  rw [List.dropWhile_eq_nil_iff.mpr (fun x hx => List.all_eq_true.mp h x hx)]
  simp

theorem dropWhile_head_not {p : Nat → Bool} :
    ∀ {l : List Nat} {c : Nat} {u : List Nat}, l.dropWhile p = c :: u → p c = false := by
  intro l
  induction l with
  | nil => intro c u h; simp at h
  | cons d l IH =>
    intro c u h
    by_cases hd : p d
    · rw [List.dropWhile_cons_of_pos hd] at h
      exact IH h
    · rw [List.dropWhile_cons_of_neg hd] at h
      obtain ⟨rfl, -⟩ := List.cons.inj h
      cases hpd : p d
      · rfl
      · exact absurd hpd hd

theorem drop_takeWhile_length (p : Nat → Bool) (l : List Nat) :
    l.drop (l.takeWhile p).length = l.dropWhile p := by
  induction l with
  | nil => rfl
  | cons d l IH =>
    by_cases hd : p d = true
    · rw [List.takeWhile_cons_of_pos hd, List.dropWhile_cons_of_pos hd]
      simpa using IH
    · rw [List.takeWhile_cons_of_neg hd, List.dropWhile_cons_of_neg hd]
      rfl

theorem all_takeWhile (p : Nat → Bool) (l : List Nat) : (l.takeWhile p).all p = true :=
  List.all_eq_true.mpr (fun _ hx => List.mem_takeWhile_imp hx)

/-! Evaluation lemmas for bsMatch at each kind of leading character. -/

theorem bsMatch_slashEsc (ib : Bool) (r : List Nat) :
    bsMatch ib (47 :: r) = some (.slashEsc, r) := rfl

theorem bsMatch_std {c : Nat} (ib : Bool) (h : isStd c = true) (r : List Nat) :
    bsMatch ib (c :: r) = some (.standard c, r) := by
  simp [bsMatch, isStd_ne_47 h, h]

theorem bsMatch_hexU {r ds T : List Nat} (h : takeHex 8 r = some (ds, T)) :
    bsMatch false (85 :: r) = some (.hexEsc 85 ds, T) := by
  simp [bsMatch, isStd, h]

theorem bsMatch_hexu {r ds T : List Nat} (h : takeHex 4 r = some (ds, T)) :
    bsMatch false (117 :: r) = some (.hexEsc 117 ds, T) := by
  simp [bsMatch, isStd, h]

theorem bsMatch_hexx (ib : Bool) {r ds T : List Nat} (h : takeHex 2 r = some (ds, T)) :
    bsMatch ib (120 :: r) = some (.hexEsc 120 ds, T) := by
  simp [bsMatch, isStd, h]

theorem bsMatch_badU {r : List Nat} (h : takeHex 8 r = none) :
    bsMatch false (85 :: r) = some (.badEsc 85, r) := by
  simp [bsMatch, isStd, h]

theorem bsMatch_badu {r : List Nat} (h : takeHex 4 r = none) :
    bsMatch false (117 :: r) = some (.badEsc 117, r) := by
  simp [bsMatch, isStd, h]

theorem bsMatch_badx (ib : Bool) {r : List Nat} (h : takeHex 2 r = none) :
    bsMatch ib (120 :: r) = some (.badEsc 120, r) := by
  simp [bsMatch, isStd, h]

theorem bsMatch_oct {c : Nat} (ib : Bool) (hc : isOct c = true) (r : List Nat) :
    bsMatch ib (c :: r) =
      some (.octal (c :: (r.takeWhile isOct).take 2),
        r.drop ((r.takeWhile isOct).take 2).length) := by
  obtain ⟨h47, hstd, h85, h117, h120, h78⟩ := isOct_facts hc
  simp [bsMatch, h47, hstd, h85, h117, h120, h78, hc]

theorem bsMatch_N (r : List Nat) :
    bsMatch false (78 :: r) =
      match r with
      | 123 :: r2 =>
        if 125 ∈ r2 then
          some (.named (r2.takeWhile (· != 125)), (r2.dropWhile (· != 125)).tail)
        else some (.badEsc 78, 123 :: r2)
      | _ => some (.badEsc 78, r) := by
  cases r with
  | nil => rfl
  | cons d r2 =>
    show bsMatch false (78 :: d :: r2) = _
    by_cases hd : d = 123
    · subst hd; rfl
    · have h1 : bsMatch false (78 :: d :: r2) = some (.badEsc 78, d :: r2) := by
        simp only [bsMatch, isStd, isOct]
        norm_num
        split
        · rename_i heq
          exact absurd (List.cons.inj heq).1 hd
        · rfl
      rw [h1]
      split
      · rename_i heq
        exact absurd (List.cons.inj heq).1 hd
      · rfl

theorem bsMatch_named {r2 : List Nat} (h : 125 ∈ r2) :
    bsMatch false (78 :: 123 :: r2) =
      some (.named (r2.takeWhile (· != 125)), (r2.dropWhile (· != 125)).tail) := by
  rw [bsMatch_N]
  simp only [if_pos h]

theorem bsMatch_badN_brace {r2 : List Nat} (h : 125 ∉ r2) :
    bsMatch false (78 :: 123 :: r2) = some (.badEsc 78, 123 :: r2) := by
  rw [bsMatch_N]
  simp only [if_neg h]

theorem bsMatch_badN_nil : bsMatch false [78] = some (.badEsc 78, []) := rfl

theorem bsMatch_badN_head {d : Nat} (hd : d ≠ 123) (r2 : List Nat) :
    bsMatch false (78 :: d :: r2) = some (.badEsc 78, d :: r2) := by
  rw [bsMatch_N]
  split
  · rename_i heq
    exact absurd (List.cons.inj heq).1 hd
  · rfl

theorem bsMatch_single_eval {ib : Bool} {c : Nat} (h47 : c ≠ 47) (hstd : isStd c = false)
    (hU : ¬(ib = false ∧ c = 85)) (hu : ¬(ib = false ∧ c = 117)) (h120 : c ≠ 120)
    (hoct : isOct c = false) (hN : ¬(ib = false ∧ c = 78)) (r : List Nat) :
    bsMatch ib (c :: r) = some (.single c, r) := by
  simp [bsMatch, h47, hstd, hU, hu, h120, hoct, hN]

theorem normTok_not_raw_chunk {ib n : Bool} {lk : List Nat → Option Nat} {pos : Nat}
    {t : Tok} {chunk : List Nat}
    (h : normTok ib n false false lk pos t = .ok chunk) : ∃ u, chunk = 92 :: u := by
  cases t with
  | slashEsc =>
    cases n with
    | false => exact ⟨[47], (Except.ok.inj h).symm⟩
    | true => exact ⟨[92, 92, 92], (Except.ok.inj h).symm⟩
  | standard c => exact ⟨[c], (Except.ok.inj h).symm⟩
  | octal ds => exact ⟨ds, (Except.ok.inj h).symm⟩
  | hexEsc p ds => exact ⟨p :: ds, (Except.ok.inj h).symm⟩
  | named name => exact ⟨78 :: 123 :: (name ++ [125]), (Except.ok.inj h).symm⟩
  | single c => exact ⟨[c], (Except.ok.inj h).symm⟩
  | badEsc c => exact ⟨[c], (Except.ok.inj h).symm⟩

theorem scanW_head {ib n : Bool} {lk : List Nat → Option Nat} {pos : Nat} {c : Nat}
    {rest out : List Nat}
    (h : scanW ib n false false lk pos (c :: rest) = .ok out) : ∃ u, out = c :: u := by
  by_cases h47 : c = 47
  · subst h47
    rw [scanW_slash] at h
    obtain ⟨y, -, rfl⟩ := map_eq_ok h
    exact ⟨y, rfl⟩
  by_cases h92 : c = 92
  · subst h92
    cases hbs : bsMatch ib rest with
    | none =>
      rw [scanW_bs_none hbs] at h
      obtain ⟨y, -, rfl⟩ := map_eq_ok h
      exact ⟨y, rfl⟩
    | some p =>
      obtain ⟨t, rest'⟩ := p
      cases hnt : normTok ib n false false lk pos t with
      | error e =>
        rw [scanW_bs_err hbs pos hnt] at h
        cases h
      | ok chunk =>
        rw [scanW_bs_ok hbs pos hnt] at h
        obtain ⟨y, -, rfl⟩ := map_eq_ok h
        obtain ⟨u, rfl⟩ := normTok_not_raw_chunk hnt
        exact ⟨u ++ y, rfl⟩
  · rw [scanW_lit h47 h92] at h
    obtain ⟨y, -, rfl⟩ := map_eq_ok h
    exact ⟨y, rfl⟩

theorem bsMatch_tokText_mem {ib : Bool} {rest rest' : List Nat} {t : Tok}
    (h : bsMatch ib rest = some (t, rest')) : ∀ a ∈ tokText t, a = 92 ∨ a ∈ rest := by
  match rest with
  | [] => simp [bsMatch] at h
  | c :: r =>
    by_cases h47 : c = 47
    · subst h47
      rw [bsMatch_slashEsc] at h
      simp only [Option.some.injEq, Prod.mk.injEq] at h
      obtain ⟨rfl, rfl⟩ := h
      intro a ha
      simp only [tokText, List.mem_cons, List.not_mem_nil, or_false] at ha
      rcases ha with rfl | rfl
      · exact Or.inl rfl
      · exact Or.inr (List.mem_cons_self _ _)
    by_cases hstd : isStd c = true
    · rw [bsMatch_std ib hstd] at h
      simp only [Option.some.injEq, Prod.mk.injEq] at h
      obtain ⟨rfl, rfl⟩ := h
      intro a ha
      simp only [tokText, List.mem_cons, List.not_mem_nil, or_false] at ha
      rcases ha with rfl | rfl
      · exact Or.inl rfl
      · exact Or.inr (List.mem_cons_self _ _)
    by_cases hU : ib = false ∧ c = 85
    · obtain ⟨rfl, rfl⟩ := hU
      cases htk : takeHex 8 r with
      | some p =>
        obtain ⟨ds, r₂⟩ := p
        rw [bsMatch_hexU htk] at h
        simp only [Option.some.injEq, Prod.mk.injEq] at h
        obtain ⟨rfl, rfl⟩ := h
        obtain ⟨hds, -, -, -⟩ := takeHex_shape htk
        intro a ha
        simp only [tokText, List.mem_cons] at ha
        rcases ha with rfl | rfl | ha
        · exact Or.inl rfl
        · exact Or.inr (List.mem_cons_self _ _)
        · exact Or.inr (List.mem_cons_of_mem _ (List.take_subset _ _ (hds ▸ ha)))
      | none =>
        rw [bsMatch_badU htk] at h
        simp only [Option.some.injEq, Prod.mk.injEq] at h
        obtain ⟨rfl, rfl⟩ := h
        intro a ha
        simp only [tokText, List.mem_cons, List.not_mem_nil, or_false] at ha
        rcases ha with rfl | rfl
        · exact Or.inl rfl
        · exact Or.inr (List.mem_cons_self _ _)
    by_cases hu : ib = false ∧ c = 117
    · obtain ⟨rfl, rfl⟩ := hu
      cases htk : takeHex 4 r with
      | some p =>
        obtain ⟨ds, r₂⟩ := p
        rw [bsMatch_hexu htk] at h
        simp only [Option.some.injEq, Prod.mk.injEq] at h
        obtain ⟨rfl, rfl⟩ := h
        obtain ⟨hds, -, -, -⟩ := takeHex_shape htk
        intro a ha
        simp only [tokText, List.mem_cons] at ha
        rcases ha with rfl | rfl | ha
        · exact Or.inl rfl
        · exact Or.inr (List.mem_cons_self _ _)
        · exact Or.inr (List.mem_cons_of_mem _ (List.take_subset _ _ (hds ▸ ha)))
      | none =>
        rw [bsMatch_badu htk] at h
        simp only [Option.some.injEq, Prod.mk.injEq] at h
        obtain ⟨rfl, rfl⟩ := h
        intro a ha
        simp only [tokText, List.mem_cons, List.not_mem_nil, or_false] at ha
        rcases ha with rfl | rfl
        · exact Or.inl rfl
        · exact Or.inr (List.mem_cons_self _ _)
    by_cases hx : c = 120
    · subst hx
      cases htk : takeHex 2 r with
      | some p =>
        obtain ⟨ds, r₂⟩ := p
        rw [bsMatch_hexx ib htk] at h
        simp only [Option.some.injEq, Prod.mk.injEq] at h
        obtain ⟨rfl, rfl⟩ := h
        obtain ⟨hds, -, -, -⟩ := takeHex_shape htk
        intro a ha
        simp only [tokText, List.mem_cons] at ha
        rcases ha with rfl | rfl | ha
        · exact Or.inl rfl
        · exact Or.inr (List.mem_cons_self _ _)
        · exact Or.inr (List.mem_cons_of_mem _ (List.take_subset _ _ (hds ▸ ha)))
      | none =>
        rw [bsMatch_badx ib htk] at h
        simp only [Option.some.injEq, Prod.mk.injEq] at h
        obtain ⟨rfl, rfl⟩ := h
        intro a ha
        simp only [tokText, List.mem_cons, List.not_mem_nil, or_false] at ha
        rcases ha with rfl | rfl
        · exact Or.inl rfl
        · exact Or.inr (List.mem_cons_self _ _)
    by_cases hoct : isOct c = true
    · rw [bsMatch_oct ib hoct] at h
      simp only [Option.some.injEq, Prod.mk.injEq] at h
      obtain ⟨rfl, rfl⟩ := h
      intro a ha
      simp only [tokText, List.mem_cons] at ha
      rcases ha with rfl | rfl | ha
      · exact Or.inl rfl
      · exact Or.inr (List.mem_cons_self _ _)
      · refine Or.inr (List.mem_cons_of_mem _ ?_)
        exact ((List.take_sublist _ _).trans (List.takeWhile_sublist _)).subset ha
    by_cases hN : ib = false ∧ c = 78
    · obtain ⟨rfl, rfl⟩ := hN
      cases r with
      | nil =>
        rw [bsMatch_badN_nil] at h
        simp only [Option.some.injEq, Prod.mk.injEq] at h
        obtain ⟨rfl, rfl⟩ := h
        intro a ha
        simp only [tokText, List.mem_cons, List.not_mem_nil, or_false] at ha
        rcases ha with rfl | rfl
        · exact Or.inl rfl
        · exact Or.inr (List.mem_cons_self _ _)
      | cons d r2 =>
        by_cases hd : d = 123
        · subst hd
          by_cases h125 : 125 ∈ r2
          · rw [bsMatch_named h125] at h
            simp only [Option.some.injEq, Prod.mk.injEq] at h
            obtain ⟨rfl, rfl⟩ := h
            intro a ha
            simp only [tokText, List.mem_cons] at ha
            rcases ha with rfl | rfl | rfl | ha
            · exact Or.inl rfl
            · exact Or.inr (List.mem_cons_self _ _)
            · exact Or.inr (List.mem_cons_of_mem _ (List.mem_cons_self _ _))
            · rcases List.mem_append.mp ha with ha | ha
              · refine Or.inr (List.mem_cons_of_mem _ (List.mem_cons_of_mem _ ?_))
                exact (List.takeWhile_sublist _).subset ha
              · simp only [List.mem_singleton] at ha
                subst ha
                exact Or.inr (List.mem_cons_of_mem _ (List.mem_cons_of_mem _ h125))
          · rw [bsMatch_badN_brace h125] at h
            simp only [Option.some.injEq, Prod.mk.injEq] at h
            obtain ⟨rfl, rfl⟩ := h
            intro a ha
            simp only [tokText, List.mem_cons, List.not_mem_nil, or_false] at ha
            rcases ha with rfl | rfl
            · exact Or.inl rfl
            · exact Or.inr (List.mem_cons_self _ _)
        · rw [bsMatch_badN_head hd r2] at h
          simp only [Option.some.injEq, Prod.mk.injEq] at h
          obtain ⟨rfl, rfl⟩ := h
          intro a ha
          simp only [tokText, List.mem_cons, List.not_mem_nil, or_false] at ha
          rcases ha with rfl | rfl
          · exact Or.inl rfl
          · exact Or.inr (List.mem_cons_self _ _)
    · have hstd' : isStd c = false := by
        cases hb : isStd c
        · rfl
        · exact absurd hb hstd
      have hoct' : isOct c = false := by
        cases hb : isOct c
        · rfl
        · exact absurd hb hoct
      rw [bsMatch_single_eval h47 hstd' hU hu hx hoct' hN r] at h
      simp only [Option.some.injEq, Prod.mk.injEq] at h
      obtain ⟨rfl, rfl⟩ := h
      intro a ha
      simp only [tokText, List.mem_cons, List.not_mem_nil, or_false] at ha
      rcases ha with rfl | rfl
      · exact Or.inl rfl
      · exact Or.inr (List.mem_cons_self _ _)

theorem bsMatch_rest_sublist {ib : Bool} {rest rest' : List Nat} {t : Tok}
    (h : bsMatch ib rest = some (t, rest')) : List.Sublist rest' rest := by
  match rest with
  | [] => simp [bsMatch] at h
  | c :: r =>
    have base : List.Sublist r (c :: r) := List.sublist_cons_self c r
    by_cases h47 : c = 47
    · subst h47
      rw [bsMatch_slashEsc] at h
      simp only [Option.some.injEq, Prod.mk.injEq] at h
      obtain ⟨rfl, rfl⟩ := h
      exact base
    by_cases hstd : isStd c = true
    · rw [bsMatch_std ib hstd] at h
      simp only [Option.some.injEq, Prod.mk.injEq] at h
      obtain ⟨rfl, rfl⟩ := h
      exact base
    by_cases hU : ib = false ∧ c = 85
    · obtain ⟨rfl, rfl⟩ := hU
      cases htk : takeHex 8 r with
      | some p =>
        obtain ⟨ds, r₂⟩ := p
        rw [bsMatch_hexU htk] at h
        simp only [Option.some.injEq, Prod.mk.injEq] at h
        obtain ⟨rfl, rfl⟩ := h
        obtain ⟨-, rfl, -, -⟩ := takeHex_shape htk
        exact (List.drop_sublist _ _).trans base
      | none =>
        rw [bsMatch_badU htk] at h
        simp only [Option.some.injEq, Prod.mk.injEq] at h
        obtain ⟨rfl, rfl⟩ := h
        exact base
    by_cases hu : ib = false ∧ c = 117
    · obtain ⟨rfl, rfl⟩ := hu
      cases htk : takeHex 4 r with
      | some p =>
        obtain ⟨ds, r₂⟩ := p
        rw [bsMatch_hexu htk] at h
        simp only [Option.some.injEq, Prod.mk.injEq] at h
        obtain ⟨rfl, rfl⟩ := h
        obtain ⟨-, rfl, -, -⟩ := takeHex_shape htk
        exact (List.drop_sublist _ _).trans base
      | none =>
        rw [bsMatch_badu htk] at h
        simp only [Option.some.injEq, Prod.mk.injEq] at h
        obtain ⟨rfl, rfl⟩ := h
        exact base
    by_cases hx : c = 120
    · subst hx
      cases htk : takeHex 2 r with
      | some p =>
        obtain ⟨ds, r₂⟩ := p
        rw [bsMatch_hexx ib htk] at h
        simp only [Option.some.injEq, Prod.mk.injEq] at h
        obtain ⟨rfl, rfl⟩ := h
        obtain ⟨-, rfl, -, -⟩ := takeHex_shape htk
        exact (List.drop_sublist _ _).trans base
      | none =>
        rw [bsMatch_badx ib htk] at h
        simp only [Option.some.injEq, Prod.mk.injEq] at h
        obtain ⟨rfl, rfl⟩ := h
        exact base
    by_cases hoct : isOct c = true
    · rw [bsMatch_oct ib hoct] at h
      simp only [Option.some.injEq, Prod.mk.injEq] at h
      obtain ⟨rfl, rfl⟩ := h
      exact (List.drop_sublist _ _).trans base
    by_cases hN : ib = false ∧ c = 78
    · obtain ⟨rfl, rfl⟩ := hN
      cases r with
      | nil =>
        rw [bsMatch_badN_nil] at h
        simp only [Option.some.injEq, Prod.mk.injEq] at h
        obtain ⟨rfl, rfl⟩ := h
        exact base
      | cons d r2 =>
        by_cases hd : d = 123
        · subst hd
          by_cases h125 : 125 ∈ r2
          · rw [bsMatch_named h125] at h
            simp only [Option.some.injEq, Prod.mk.injEq] at h
            obtain ⟨rfl, rfl⟩ := h
            refine ((List.tail_sublist _).trans ((List.dropWhile_sublist _).trans ?_)).trans base
            exact List.sublist_cons_self 123 r2
          · rw [bsMatch_badN_brace h125] at h
            simp only [Option.some.injEq, Prod.mk.injEq] at h
            obtain ⟨rfl, rfl⟩ := h
            exact base
        · rw [bsMatch_badN_head hd r2] at h
          simp only [Option.some.injEq, Prod.mk.injEq] at h
          obtain ⟨rfl, rfl⟩ := h
          exact base
    · have hstd' : isStd c = false := by
        cases hb : isStd c
        · rfl
        · exact absurd hb hstd
      have hoct' : isOct c = false := by
        cases hb : isOct c
        · rfl
        · exact absurd hb hoct
      rw [bsMatch_single_eval h47 hstd' hU hu hx hoct' hN r] at h
      simp only [Option.some.injEq, Prod.mk.injEq] at h
      obtain ⟨rfl, rfl⟩ := h
      exact base

theorem scanW_mem {ib n : Bool} {lk : List Nat → Option Nat} :
    ∀ (N : Nat) (s : List Nat), s.length ≤ N → ∀ (pos : Nat) (T : List Nat) (a : Nat),
      scanW ib n false false lk pos s = .ok T → a ∈ T → a = 92 ∨ a ∈ s := by
  intro N
  induction N with
  | zero =>
    intro s hs pos T a h ha
    have h0 : s = [] := List.eq_nil_of_length_eq_zero (Nat.le_zero.mp hs)
    subst h0
    rw [scanW_nil] at h
    cases h
    simp at ha
  | succ N IH =>
    intro s hs pos T a h ha
    match s with
    | [] =>
      rw [scanW_nil] at h
      cases h
      simp at ha
    | c :: rest =>
      have hrest : rest.length ≤ N := by simpa using hs
      by_cases h47 : c = 47
      · subst h47
        rw [scanW_slash] at h
        obtain ⟨y, hy, rfl⟩ := map_eq_ok h
        rcases List.mem_cons.mp ha with rfl | ha
        · exact Or.inr (List.mem_cons_self _ _)
        · rcases IH rest hrest _ y a hy ha with h92 | hmem
          · exact Or.inl h92
          · exact Or.inr (List.mem_cons_of_mem _ hmem)
      by_cases h92 : c = 92
      · subst h92
        cases hbs : bsMatch ib rest with
        | none =>
          rw [scanW_bs_none hbs] at h
          obtain ⟨y, hy, rfl⟩ := map_eq_ok h
          rcases List.mem_cons.mp ha with rfl | ha
          · exact Or.inl rfl
          · rcases IH rest hrest _ y a hy ha with hl | hmem
            · exact Or.inl hl
            · exact Or.inr (List.mem_cons_of_mem _ hmem)
        | some p =>
          obtain ⟨t, rest'⟩ := p
          cases hnt : normTok ib n false false lk pos t with
          | error e => rw [scanW_bs_err hbs pos hnt] at h; cases h
          | ok chunk =>
            rw [scanW_bs_ok hbs pos hnt] at h
            obtain ⟨y, hy, rfl⟩ := map_eq_ok h
            have hsub := bsMatch_rest_sublist hbs
            rcases List.mem_append.mp ha with ha | ha
            · -- a is in the emitted chunk
              have hch : ∀ b ∈ chunk, b = 92 ∨ b ∈ tokText t := by
                cases t with
                | slashEsc =>
                  cases n with
                  | false =>
                    obtain rfl := Except.ok.inj hnt
                    exact fun b hb => Or.inr hb
                  | true =>
                    obtain rfl := Except.ok.inj hnt
                    intro b hb
                    left
                    simpa using hb
                | standard c' =>
                  obtain rfl := Except.ok.inj hnt
                  exact fun b hb => Or.inr hb
                | octal ds =>
                  obtain rfl := Except.ok.inj hnt
                  exact fun b hb => Or.inr hb
                | hexEsc p' ds =>
                  obtain rfl := Except.ok.inj hnt
                  exact fun b hb => Or.inr hb
                | named name =>
                  obtain rfl := Except.ok.inj hnt
                  exact fun b hb => Or.inr hb
                | single c' =>
                  obtain rfl := Except.ok.inj hnt
                  exact fun b hb => Or.inr hb
                | badEsc c' =>
                  obtain rfl := Except.ok.inj hnt
                  exact fun b hb => Or.inr hb
              rcases hch a ha with hl | htt
              · exact Or.inl hl
              · rcases bsMatch_tokText_mem hbs a htt with hl | hmem
                · exact Or.inl hl
                · exact Or.inr (List.mem_cons_of_mem _ hmem)
            · have hlen' : rest'.length ≤ N := (bsMatch_rest_length hbs).trans hrest
              rcases IH rest' hlen' _ y a hy ha with hl | hmem
              · exact Or.inl hl
              · exact Or.inr (List.mem_cons_of_mem _ (hsub.subset hmem))
      · rw [scanW_lit h47 h92] at h
        obtain ⟨y, hy, rfl⟩ := map_eq_ok h
        rcases List.mem_cons.mp ha with rfl | ha
        · exact Or.inr (List.mem_cons_self _ _)
        · rcases IH rest hrest _ y a hy ha with hl | hmem
          · exact Or.inl hl
          · exact Or.inr (List.mem_cons_of_mem _ hmem)

theorem scan_preserves_takeHex_none {ib n : Bool} {lk : List Nat → Option Nat} :
    ∀ (k : Nat) (s T : List Nat) (pos : Nat),
      scanW ib n false false lk pos s = .ok T → takeHex k s = none → takeHex k T = none := by
  intro k
  induction k with
  | zero =>
    intro s T pos _ h0
    rw [takeHex_zero] at h0
    cases h0
  | succ k IH =>
    intro s T pos hscan hnone
    match s with
    | [] =>
      rw [scanW_nil] at hscan
      cases hscan
      exact takeHex_succ_nil k
    | c :: u =>
      by_cases hhex : isHex c = true
      · obtain ⟨hc47, hc92⟩ := isHex_ne hhex
        rw [scanW_lit hc47 hc92] at hscan
        obtain ⟨y, hy, rfl⟩ := map_eq_ok hscan
        rw [takeHex_succ_hex hhex] at hnone
        rw [takeHex_succ_hex hhex]
        exact IH u y _ hy hnone
      · have hhex' : isHex c = false := Bool.not_eq_true _ ▸ hhex
        obtain ⟨u', rfl⟩ := scanW_head hscan
        exact takeHex_succ_not_hex hhex' k u'

theorem scanW_bs_ok_nr {ib n : Bool} {lk : List Nat → Option Nat} {t : Tok}
    {rest rest' chunk : List Nat}
    (hbs : bsMatch ib rest = some (t, rest'))
    (hok : ∀ q : Nat, normTok ib n false false lk q t = .ok chunk) (pos : Nat) :
    scanW ib n false false lk pos (92 :: rest) =
      (scanW ib n false false lk (pos + 1 + (rest.length - rest'.length)) rest').map
        (fun out => chunk ++ out) := scanW_bs_ok hbs pos (hok pos)

theorem normTok_nr_slash_t {ib : Bool} {lk : List Nat → Option Nat} :
    ∀ q, normTok ib true false false lk q .slashEsc = .ok [92, 92, 92, 92] := fun _ => rfl

theorem normTok_nr_slash_f {ib : Bool} {lk : List Nat → Option Nat} :
    ∀ q, normTok ib false false false lk q .slashEsc = .ok [92, 47] := fun _ => rfl

theorem normTok_nr_std {ib n : Bool} {lk : List Nat → Option Nat} {c : Nat} :
    ∀ q, normTok ib n false false lk q (.standard c) = .ok [92, c] := fun _ => rfl

theorem normTok_nr_oct {ib n : Bool} {lk : List Nat → Option Nat} {ds : List Nat} :
    ∀ q, normTok ib n false false lk q (.octal ds) = .ok (92 :: ds) := fun _ => rfl

theorem normTok_nr_hex {ib n : Bool} {lk : List Nat → Option Nat} {p : Nat} {ds : List Nat} :
    ∀ q, normTok ib n false false lk q (.hexEsc p ds) = .ok (92 :: p :: ds) := fun _ => rfl

theorem normTok_nr_named {ib n : Bool} {lk : List Nat → Option Nat} {name : List Nat} :
    ∀ q, normTok ib n false false lk q (.named name) =
      .ok (92 :: 78 :: 123 :: (name ++ [125])) := fun _ => rfl

theorem normTok_nr_single {ib n : Bool} {lk : List Nat → Option Nat} {c : Nat} :
    ∀ q, normTok ib n false false lk q (.single c) = .ok [92, c] := fun _ => rfl

theorem normTok_nr_bad {ib n : Bool} {lk : List Nat → Option Nat} {c : Nat} :
    ∀ q, normTok ib n false false lk q (.badEsc c) = .ok [92, c] := fun _ => rfl

theorem all_take_takeWhile (p : Nat → Bool) (l : List Nat) (k : Nat) :
    ((l.takeWhile p).take k).all p = true :=
  List.all_eq_true.mpr fun _ ha => List.mem_takeWhile_imp ((List.take_sublist _ _).subset ha)

/-- The central fixed-point lemma: with raw-character decoding off, the
output of one scan is left unchanged by a second scan (at any position). -/
theorem scan_idem {ib n : Bool} {lk : List Nat → Option Nat} :
    ∀ (N : Nat) (s : List Nat), s.length ≤ N → ∀ (pos pos' : Nat) (out : List Nat),
      scanW ib n false false lk pos s = .ok out →
      scanW ib n false false lk pos' out = .ok out := by
  intro N
  induction N with
  | zero =>
    intro s hs pos pos' out h
    have h0 : s = [] := List.eq_nil_of_length_eq_zero (Nat.le_zero.mp hs)
    subst h0
    rw [scanW_nil] at h
    cases h
    exact scanW_nil pos'
  | succ N IH =>
    intro s hs pos pos' out h
    match s with
    | [] =>
      rw [scanW_nil] at h
      cases h
      exact scanW_nil pos'
    | c :: rest =>
      have hrest : rest.length ≤ N := by simpa using hs
      by_cases h47 : c = 47
      · subst h47
        rw [scanW_slash] at h
        obtain ⟨T, hT, rfl⟩ := map_eq_ok h
        have hTfix : ∀ q, scanW ib n false false lk q T = .ok T :=
          fun q => IH rest hrest _ q T hT
        rw [scanW_slash, hTfix]
        rfl
      by_cases h92 : c = 92
      swap
      · rw [scanW_lit h47 h92] at h
        obtain ⟨T, hT, rfl⟩ := map_eq_ok h
        have hTfix : ∀ q, scanW ib n false false lk q T = .ok T :=
          fun q => IH rest hrest _ q T hT
        rw [scanW_lit h47 h92, hTfix]
        rfl
      subst h92
      match rest, hrest with
      | [], _ =>
        rw [scanW_bs_none (show bsMatch ib ([] : List Nat) = none from rfl)] at h
        obtain ⟨T, hT, rfl⟩ := map_eq_ok h
        rw [scanW_nil] at hT
        cases hT
        rw [scanW_bs_none (show bsMatch ib ([] : List Nat) = none from rfl), scanW_nil]
        rfl
      | c' :: r, hrest =>
        have hr : r.length ≤ N := by
          simp only [List.length_cons] at hrest
          omega
        by_cases hc47 : c' = 47
        · -- escaped separator
          subst hc47
          cases n with
          | true =>
            rw [scanW_bs_ok_nr (bsMatch_slashEsc ib r) normTok_nr_slash_t] at h
            obtain ⟨T, hT, rfl⟩ := map_eq_ok h
            have hTfix : ∀ q, scanW ib true false false lk q T = .ok T :=
              fun q => IH r hr _ q T hT
            simp only [List.cons_append, List.nil_append]
            rw [scanW_bs_ok_nr (bsMatch_std ib (by decide) (92 :: 92 :: T)) normTok_nr_std,
              scanW_bs_ok_nr (bsMatch_std ib (by decide) T) normTok_nr_std, hTfix]
            rfl
          | false =>
            rw [scanW_bs_ok_nr (bsMatch_slashEsc ib r) normTok_nr_slash_f] at h
            obtain ⟨T, hT, rfl⟩ := map_eq_ok h
            have hTfix : ∀ q, scanW ib false false false lk q T = .ok T :=
              fun q => IH r hr _ q T hT
            simp only [List.cons_append, List.nil_append]
            rw [scanW_bs_ok_nr (bsMatch_slashEsc ib T) normTok_nr_slash_f, hTfix]
            rfl
        by_cases hstd : isStd c' = true
        · -- standard escape: passed through, rescans as itself
          rw [scanW_bs_ok_nr (bsMatch_std ib hstd r) normTok_nr_std] at h
          obtain ⟨T, hT, rfl⟩ := map_eq_ok h
          have hTfix : ∀ q, scanW ib n false false lk q T = .ok T :=
            fun q => IH r hr _ q T hT
          simp only [List.cons_append, List.nil_append]
          rw [scanW_bs_ok_nr (bsMatch_std ib hstd T) normTok_nr_std, hTfix]
          rfl
        by_cases hU : ib = false ∧ c' = 85
        · obtain ⟨rfl, rfl⟩ := hU
          cases htk : takeHex 8 r with
          | some p =>
            obtain ⟨ds, r₂⟩ := p
            obtain ⟨-, -, hdslen, hdsall⟩ := takeHex_shape htk
            rw [scanW_bs_ok_nr (bsMatch_hexU htk) normTok_nr_hex] at h
            obtain ⟨T, hT, rfl⟩ := map_eq_ok h
            have hlen' : r₂.length ≤ N := by
              have := takeHex_remainder_length htk
              omega
            have hTfix : ∀ q, scanW false n false false lk q T = .ok T :=
              fun q => IH r₂ hlen' _ q T hT
            simp only [List.cons_append, List.nil_append]
            rw [scanW_bs_ok_nr (bsMatch_hexU (takeHex_exact hdslen hdsall T))
              normTok_nr_hex, hTfix]
            rfl
          | none =>
            rw [scanW_bs_ok_nr (bsMatch_badU htk) normTok_nr_bad] at h
            obtain ⟨T, hT, rfl⟩ := map_eq_ok h
            have hTfix : ∀ q, scanW false n false false lk q T = .ok T :=
              fun q => IH r hr _ q T hT
            have htk₂ : takeHex 8 T = none := scan_preserves_takeHex_none 8 r T _ hT htk
            simp only [List.cons_append, List.nil_append]
            rw [scanW_bs_ok_nr (bsMatch_badU htk₂) normTok_nr_bad, hTfix]
            rfl
        by_cases hu : ib = false ∧ c' = 117
        · obtain ⟨rfl, rfl⟩ := hu
          cases htk : takeHex 4 r with
          | some p =>
            obtain ⟨ds, r₂⟩ := p
            obtain ⟨-, -, hdslen, hdsall⟩ := takeHex_shape htk
            rw [scanW_bs_ok_nr (bsMatch_hexu htk) normTok_nr_hex] at h
            obtain ⟨T, hT, rfl⟩ := map_eq_ok h
            have hlen' : r₂.length ≤ N := by
              have := takeHex_remainder_length htk
              omega
            have hTfix : ∀ q, scanW false n false false lk q T = .ok T :=
              fun q => IH r₂ hlen' _ q T hT
            simp only [List.cons_append, List.nil_append]
            rw [scanW_bs_ok_nr (bsMatch_hexu (takeHex_exact hdslen hdsall T))
              normTok_nr_hex, hTfix]
            rfl
          | none =>
            rw [scanW_bs_ok_nr (bsMatch_badu htk) normTok_nr_bad] at h
            obtain ⟨T, hT, rfl⟩ := map_eq_ok h
            have hTfix : ∀ q, scanW false n false false lk q T = .ok T :=
              fun q => IH r hr _ q T hT
            have htk₂ : takeHex 4 T = none := scan_preserves_takeHex_none 4 r T _ hT htk
            simp only [List.cons_append, List.nil_append]
            rw [scanW_bs_ok_nr (bsMatch_badu htk₂) normTok_nr_bad, hTfix]
            rfl
        by_cases hx : c' = 120
        · subst hx
          cases htk : takeHex 2 r with
          | some p =>
            obtain ⟨ds, r₂⟩ := p
            obtain ⟨-, -, hdslen, hdsall⟩ := takeHex_shape htk
            rw [scanW_bs_ok_nr (bsMatch_hexx ib htk) normTok_nr_hex] at h
            obtain ⟨T, hT, rfl⟩ := map_eq_ok h
            have hlen' : r₂.length ≤ N := by
              have := takeHex_remainder_length htk
              omega
            have hTfix : ∀ q, scanW ib n false false lk q T = .ok T :=
              fun q => IH r₂ hlen' _ q T hT
            simp only [List.cons_append, List.nil_append]
            rw [scanW_bs_ok_nr (bsMatch_hexx ib (takeHex_exact hdslen hdsall T))
              normTok_nr_hex, hTfix]
            rfl
          | none =>
            rw [scanW_bs_ok_nr (bsMatch_badx ib htk) normTok_nr_bad] at h
            obtain ⟨T, hT, rfl⟩ := map_eq_ok h
            have hTfix : ∀ q, scanW ib n false false lk q T = .ok T :=
              fun q => IH r hr _ q T hT
            have htk₂ : takeHex 2 T = none := scan_preserves_takeHex_none 2 r T _ hT htk
            simp only [List.cons_append, List.nil_append]
            rw [scanW_bs_ok_nr (bsMatch_badx ib htk₂) normTok_nr_bad, hTfix]
            rfl
        by_cases hoct : isOct c' = true
        · -- octal digits: the matched group is maximal, so it rescans to itself
          rw [scanW_bs_ok_nr (bsMatch_oct ib hoct r) normTok_nr_oct] at h
          obtain ⟨T, hT, rfl⟩ := map_eq_ok h
          have hdstall : ((r.takeWhile isOct).take 2).all isOct = true :=
            all_take_takeWhile isOct r 2
          have hlen' : (r.drop ((r.takeWhile isOct).take 2).length).length ≤ N := by
            have hd : (r.drop ((r.takeWhile isOct).take 2).length).length ≤ r.length := by
              simp [List.length_drop]
            omega
          have hTfix : ∀ q, scanW ib n false false lk q T = .ok T :=
            fun q => IH _ hlen' _ q T hT
          have key : (((r.takeWhile isOct).take 2 ++ T).takeWhile isOct).take 2 =
              (r.takeWhile isOct).take 2 := by
            by_cases h2 : 2 ≤ (r.takeWhile isOct).length
            · have hl2 : ((r.takeWhile isOct).take 2).length = 2 := by
                rw [List.length_take]
                omega
              rw [takeWhile_append_of_all hdstall, List.take_left' hl2]
            · have heq : (r.takeWhile isOct).take 2 = r.takeWhile isOct :=
                List.take_of_length_le (by omega)
              have hdrop : r.drop ((r.takeWhile isOct).take 2).length = r.dropWhile isOct := by
                rw [heq, drop_takeWhile_length]
              have hTtw : T.takeWhile isOct = [] := by
                rw [hdrop] at hT
                cases hdw : r.dropWhile isOct with
                | nil =>
                  rw [hdw, scanW_nil] at hT
                  cases hT
                  rfl
                | cons c₂ u₂ =>
                  rw [hdw] at hT
                  obtain ⟨u', rfl⟩ := scanW_head hT
                  have hc₂ : isOct c₂ = false := dropWhile_head_not hdw
                  exact List.takeWhile_cons_of_neg (by simp [hc₂])
              rw [takeWhile_append_of_all hdstall, hTtw, List.append_nil, heq]
              exact heq
          have hbs₂ : bsMatch ib (c' :: ((r.takeWhile isOct).take 2 ++ T)) =
              some (.octal (c' :: (r.takeWhile isOct).take 2), T) := by
            rw [bsMatch_oct ib hoct ((r.takeWhile isOct).take 2 ++ T), key, List.drop_left]
          simp only [List.cons_append, List.nil_append]
          rw [scanW_bs_ok_nr hbs₂ normTok_nr_oct, hTfix]
          rfl
        by_cases hN : ib = false ∧ c' = 78
        · obtain ⟨rfl, rfl⟩ := hN
          match r, hr with
          | [], _ =>
            rw [scanW_bs_ok_nr bsMatch_badN_nil normTok_nr_bad] at h
            obtain ⟨T, hT, rfl⟩ := map_eq_ok h
            rw [scanW_nil] at hT
            cases hT
            simp only [List.cons_append, List.nil_append, List.append_nil]
            rw [scanW_bs_ok_nr bsMatch_badN_nil normTok_nr_bad, scanW_nil]
            rfl
          | d :: r2, hr =>
            have hr2 : r2.length ≤ N := by
              simp only [List.length_cons] at hr
              omega
            by_cases hd : d = 123
            · subst hd
              by_cases h125 : 125 ∈ r2
              · -- a genuine named escape: passed through, rescans identically
                rw [scanW_bs_ok_nr (bsMatch_named h125) normTok_nr_named] at h
                obtain ⟨T, hT, rfl⟩ := map_eq_ok h
                have hlen' : ((r2.dropWhile (· != 125)).tail).length ≤ N := by
                  have h1 : (r2.dropWhile (· != 125)).length ≤ r2.length :=
                    (List.dropWhile_sublist _).length_le
                  have h2 : ((r2.dropWhile (· != 125)).tail).length ≤
                      (r2.dropWhile (· != 125)).length := (List.tail_sublist _).length_le
                  omega
                have hTfix : ∀ q, scanW false n false false lk q T = .ok T :=
                  fun q => IH _ hlen' _ q T hT
                have hnmall : (r2.takeWhile (· != 125)).all (· != 125) = true :=
                  all_takeWhile _ r2
                have h125' : (125 : Nat) ∈ r2.takeWhile (· != 125) ++ 125 :: T :=
                  List.mem_append_right _ (List.mem_cons_self _ _)
                have htw : (r2.takeWhile (· != 125) ++ 125 :: T).takeWhile (· != 125) =
                    r2.takeWhile (· != 125) := by
                  rw [takeWhile_append_of_all hnmall,
                    List.takeWhile_cons_of_neg (by simp), List.append_nil]
                have hdw : (r2.takeWhile (· != 125) ++ 125 :: T).dropWhile (· != 125) =
                    125 :: T := by
                  rw [dropWhile_append_of_all hnmall, List.dropWhile_cons_of_neg (by simp)]
                have hbs₂ : bsMatch false
                    (78 :: 123 :: (r2.takeWhile (· != 125) ++ 125 :: T)) =
                    some (.named (r2.takeWhile (· != 125)), T) := by
                  rw [bsMatch_named h125', htw, hdw]
                  rfl
                have hout : (92 :: 78 :: 123 :: (r2.takeWhile (· != 125) ++ [125])) ++ T =
                    92 :: 78 :: 123 :: (r2.takeWhile (· != 125) ++ 125 :: T) := by
                  simp
                rw [hout, scanW_bs_ok_nr hbs₂ normTok_nr_named, hTfix]
                exact congrArg Except.ok hout
              · -- a brace with no closing brace: malformed prefix, passed through
                rw [scanW_bs_ok_nr (bsMatch_badN_brace h125) normTok_nr_bad] at h
                obtain ⟨T, hT, rfl⟩ := map_eq_ok h
                rw [scanW_lit (by decide) (by decide)] at hT
                obtain ⟨T₂, hT₂, rfl⟩ := map_eq_ok hT
                have hT₂fix : ∀ q, scanW false n false false lk q T₂ = .ok T₂ :=
                  fun q => IH r2 hr2 _ q T₂ hT₂
                have h125T : 125 ∉ T₂ := by
                  intro hmem
                  rcases scanW_mem N r2 hr2 _ T₂ 125 hT₂ hmem with h92' | hr'
                  · cases h92'
                  · exact h125 hr'
                simp only [List.cons_append, List.nil_append]
                rw [scanW_bs_ok_nr (bsMatch_badN_brace h125T) normTok_nr_bad,
                  scanW_lit (by decide) (by decide), hT₂fix]
                rfl
            · -- backslash N not followed by a braced name
              rw [scanW_bs_ok_nr (bsMatch_badN_head hd r2) normTok_nr_bad] at h
              obtain ⟨T, hT, rfl⟩ := map_eq_ok h
              have hTfix : ∀ q, scanW false n false false lk q T = .ok T :=
                fun q => IH _ hr _ q T hT
              obtain ⟨T₂, rfl⟩ := scanW_head hT
              simp only [List.cons_append, List.nil_append]
              rw [scanW_bs_ok_nr (bsMatch_badN_head hd T₂) normTok_nr_bad, hTfix]
              rfl
        · -- any other escaped character: opaque, passed through
          have hstd' : isStd c' = false := by
            cases hb : isStd c'
            · rfl
            · exact absurd hb hstd
          have hoct' : isOct c' = false := by
            cases hb : isOct c'
            · rfl
            · exact absurd hb hoct
          rw [scanW_bs_ok_nr (bsMatch_single_eval hc47 hstd' hU hu hx hoct' hN r)
            normTok_nr_single] at h
          obtain ⟨T, hT, rfl⟩ := map_eq_ok h
          have hTfix : ∀ q, scanW ib n false false lk q T = .ok T :=
            fun q => IH r hr _ q T hT
          simp only [List.cons_append, List.nil_append]
          rw [scanW_bs_ok_nr (bsMatch_single_eval hc47 hstd' hU hu hx hoct' hN T)
            normTok_nr_single, hTfix]
          rfl

/-- C1 counterexample: with raw decoding on, normalization is not idempotent —
the hex escape backslash-x-5-c decodes to a backslash which merges with the
following n, and a second pass decodes the resulting backslash-n to a newline. -/
theorem norm_pattern_idempotence_cex :
    norm_pattern false lkEmpty [92, 120, 53, 99, 110] false true false = .ok [92, 110] ∧
    norm_pattern false lkEmpty [92, 110] false true false = .ok [10] ∧
    ([10] : List Nat) ≠ [92, 110] := ⟨rfl, rfl, by decide⟩

/-- C1 (amended): when decodeRawChars is false, normalization is idempotent —
for every pattern in either alphabet and every normalizeSeparators setting,
re-normalizing the output with the same flags returns it unchanged. -/
theorem norm_pattern_idempotent_of_not_raw (ib n : Bool) (lk : List Nat → Option Nat)
    (p out : List Nat) (h : norm_pattern ib lk p n false false = .ok out) :
    norm_pattern ib lk out n false false = .ok out := by
  cases n with
  | false =>
    have hout : p = out := by simpa [norm_pattern] using h
    subst hout
    rfl
  | true =>
    have h' : scanW ib true false false lk 0 p = .ok out := by
      simpa [norm_pattern] using h
    have h2 := scan_idem p.length p le_rfl 0 0 out h'
    simpa [norm_pattern] using h2

/-- C1 witness: the amended idempotence applied to the escaped separator,
whose first normalization yields the canonical four-backslash form. -/
theorem norm_pattern_idempotent_of_not_raw_witness :
    norm_pattern false lkEmpty [92, 47] true false false = .ok [92, 92, 92, 92] ∧
    norm_pattern false lkEmpty [92, 92, 92, 92] true false false = .ok [92, 92, 92, 92] :=
  ⟨rfl, norm_pattern_idempotent_of_not_raw false true lkEmpty [92, 47] [92, 92, 92, 92] rfl⟩

/-- C9: filter returns exactly the filenames fnmatch accepts, in original
relative order (a sublist of the input), both built on one compilation of
the pattern set by the abstracted external compiler. -/
theorem filter_agrees_fnmatch {α β γ δ υ : Type} (compile : β → Nat → γ → δ → α → Option υ)
    (filenames : List α) (patterns : β) (flags : Nat) (limit : γ) (exclude : δ) :
    filter compile filenames patterns flags limit exclude =
      filenames.filter (fun f => fnmatch compile f patterns flags limit exclude) ∧
    List.Sublist (filter compile filenames patterns flags limit exclude) filenames :=
  ⟨rfl, List.filter_sublist _⟩

end Wcmatch
